import Mathlib

/-!
Verification of the bulk-mutation engine of the Cloud Bigtable client
(`google/cloud/bigtable/internal/bulk_mutator.h`) and of the helper
functions in `google/cloud/bigtable/internal/table.h`.

The header `bulk_mutator.h` declares the `BulkMutator` round-oriented
operations (`PrepareForRequest`, `ProcessResponse`, `FinishRequest`,
`MakeOneRequest`, `ExtractFinalFailures`); their bodies live in a `.cc`
translation unit that is not part of the sources at hand, so those bodies
are modelled here from the specification (section 4.1 of the spec), while
everything that is inline in the headers (`HasPendingMutations`,
`AsyncBulkMutator::Start`, `FinishedCallback`, `TableName`,
`SetCommonTableOperationRequest`, `noex::Table::AsyncApply`) is embedded
directly from the source.
-/

/-- Modelled from the spec (section 3, Mutation Entry): one row of a batch,
its row key plus an opaque list of write operations.  Mirrors the C++
`SingleRowMutation` as far as the claims need it. -/
structure SingleRowMutation where
  row_key : String
  ops : List Nat
deriving DecidableEq

/-- Status codes of the remote protocol, mirroring `grpc::StatusCode`. -/
inductive StatusCode where
  | ok
  | cancelled
  | unknown
  | invalidArgument
  | deadlineExceeded
  | notFound
  | permissionDenied
  | resourceExhausted
  | failedPrecondition
  | aborted
  | outOfRange
  | unavailable
deriving DecidableEq

/-- Modelled from the spec (sections 4.1 and 9): the status-class table that
decides which per-entry failures are transient (retryable).  The spec names
unavailable, deadline-exceeded and aborted as the retryable classes and says
the table is configuration; the claims do not depend on the exact table. -/
def StatusCode.isRetryable : StatusCode → Bool
  | StatusCode.unavailable => true
  | StatusCode.deadlineExceeded => true
  | StatusCode.aborted => true
  | _ => false

/-- Per-entry status, mirroring `google::rpc::Status`: error code plus
message (spec section 3, Failed Mutation). -/
structure RpcStatus where
  code : StatusCode
  message : String
deriving DecidableEq

/-- Modelled from the spec (section 4.1, `ExtractFinalFailures`): the
distinguished status used when giving up on entries whose retry budget is
exhausted. -/
def budgetExhaustedStatus : RpcStatus :=
  { code := StatusCode.deadlineExceeded, message := "retry budget exhausted" }

/-- Modelled from the spec (section 4.1, `FinishRequest`): the distinguished
status for an entry whose outcome is unknown and which is not retried
because it is not idempotent. -/
def unknownOutcomeStatus : RpcStatus :=
  { code := StatusCode.unknown
    message := "mutation outcome unknown and mutation is not idempotent" }

/-- Failed mutation record, mirroring `bigtable::FailedMutation`: the
mutation, the status it failed with, and the index of the mutation in the
original request (spec section 3, Failed Mutation). -/
structure FailedMutation where
  mut_ : SingleRowMutation
  status : RpcStatus
  original_index : Nat
deriving DecidableEq

/-- Per-entry annotation, from `bulk_mutator.h` lines 73-85: the index of
this mutation in the original request, whether it is idempotent, and whether
a result for it has been observed in the current round.  The C++ field
`original_index` is an `int` that is always a valid 0-based position, so it
is embedded as a `Nat`. -/
structure Annotations where
  original_index : Nat
  is_idempotent : Bool
  has_mutation_result : Bool
deriving DecidableEq

/-- One element of a `google::bigtable::v2::MutateRowsResponse`: the
position of the target entry within the current request, and its status.
A negative C++ index is out of range and ignored defensively exactly like an
index that is too large, so a `Nat` index loses nothing. -/
structure MutateRowsResponseEntry where
  index : Nat
  status : RpcStatus
deriving DecidableEq

/-- One streamed response chunk: a list of per-entry outcomes. -/
abbrev MutateRowsResponse := List MutateRowsResponseEntry

/-- State of `BulkMutator` (`bulk_mutator.h` lines 62-94): accumulated
failures, the current request entries paired positionally with their
annotations, and the entries/annotations accumulated for the next request.
The request protos are embedded as their entry lists; the app-profile and
table-name fields of the protos play no role in any claim.

The two extra fields are specification ghosts with no effect on behavior:
`resolvedSuccesses` records the original indices of entries that resolved
successfully and were discarded (the fourth state of spec Invariant I1),
and `extractedFailures` records the failure records already returned to the
caller by `ExtractFinalFailures`. -/
structure BulkMutator where
  failures_ : List FailedMutation
  mutations_ : List SingleRowMutation
  annotations_ : List Annotations
  pending_mutations_ : List SingleRowMutation
  pending_annotations_ : List Annotations
  resolvedSuccesses : List Nat
  extractedFailures : List FailedMutation
deriving DecidableEq

/-- Modelled from the spec (section 4.1, Construction, body in the missing
`bulk_mutator.cc`): build the initial Pending Set; for every entry in order
compute `is_idempotent` via the policy and push
its annotation with the entry. -/
def BulkMutator.init (policy : SingleRowMutation → Bool)
    (batch : List SingleRowMutation) : BulkMutator :=
  { failures_ := []
    mutations_ := []
    annotations_ := []
    pending_mutations_ := batch
    pending_annotations_ := batch.enum.map fun p =>
      { original_index := p.1, is_idempotent := policy p.2
        has_mutation_result := false }
    resolvedSuccesses := []
    extractedFailures := [] }

/-- From `bulk_mutator.h` lines 40-42: return true if there are pending
mutations in the mutator, computed as `pending_mutations_.entries_size() != 0`. -/
def BulkMutator.HasPendingMutations (s : BulkMutator) : Bool :=
  s.pending_mutations_.length != 0

/-- Modelled from the spec (section 4.1, `PrepareForRequest`, body in the
missing `bulk_mutator.cc`): move the entire Pending Set into the Current
Set and clear the Pending Set.  The protocol (spec section 4.1) requires
this to be called exactly once per round, when the Current Set is empty. -/
def BulkMutator.PrepareForRequest (s : BulkMutator) : BulkMutator :=
  { s with
    mutations_ := s.pending_mutations_
    annotations_ := s.pending_annotations_
    pending_mutations_ := []
    pending_annotations_ := [] }

/-- Modelled from the spec (section 4.1, `ProcessResponse`, body in the
missing `bulk_mutator.cc`): handle one (index, status) pair of a response
chunk.  Locate the Current Set annotation by position in the current
request; out-of-range indices and duplicates (an annotation that already
has a result) are protocol violations and are ignored defensively.
Otherwise mark the result as observed and dispatch on the status: success
drops the entry (recorded in the `resolvedSuccesses` ghost), a
non-retryable failure or a retryable failure of a non-idempotent entry
appends a Failed Mutation with the original index, and a retryable failure
of an idempotent entry re-queues the entry with its annotation
(result flag reset) into the Pending Set. -/
def BulkMutator.processOneEntry (s : BulkMutator) (idx : Nat)
    (st : RpcStatus) : BulkMutator :=
  match s.annotations_[idx]?, s.mutations_[idx]? with
  | some a, some e =>
    if a.has_mutation_result then s
    else if st.code = StatusCode.ok then
      { s with
        annotations_ := s.annotations_.set idx
          { a with has_mutation_result := true }
        resolvedSuccesses := s.resolvedSuccesses ++ [a.original_index] }
    else if st.code.isRetryable = false then
      { s with
        annotations_ := s.annotations_.set idx
          { a with has_mutation_result := true }
        failures_ := s.failures_ ++
          [{ mut_ := e, status := st, original_index := a.original_index }] }
    else if a.is_idempotent then
      { s with
        annotations_ := s.annotations_.set idx
          { a with has_mutation_result := true }
        pending_mutations_ := s.pending_mutations_ ++ [e]
        pending_annotations_ := s.pending_annotations_ ++
          [{ a with has_mutation_result := false }] }
    else
      { s with
        annotations_ := s.annotations_.set idx
          { a with has_mutation_result := true }
        failures_ := s.failures_ ++
          [{ mut_ := e, status := st, original_index := a.original_index }] }
  | _, _ => s

/-- Modelled from the spec (section 4.1, `ProcessResponse`): process every
(index, status) pair of one streamed response chunk, in delivery order. -/
def BulkMutator.ProcessResponse (s : BulkMutator)
    (response : MutateRowsResponse) : BulkMutator :=
  response.foldl (fun t r => t.processOneEntry r.index r.status) s

/-- Modelled from the spec (section 4.1, `FinishRequest`, body in the
missing `bulk_mutator.cc`): once the round is over, every Current Set
annotation that still lacks a result is outcome-unknown.  If it is
idempotent and the Retry Policy allows another attempt (the
`retryAllowed` argument), re-queue it; if it is idempotent but the budget
is exhausted, give up with the budget-exhausted status; if it is not
idempotent, append a Failed Mutation with the distinguished
unknown-outcome status.  Finally clear the Current Set.  The spec
prescribes this same split both when the round call failed and when it
succeeded but silently dropped entries, so the call status is not a
parameter of the transition. -/
def BulkMutator.FinishRequest (s : BulkMutator) (retryAllowed : Bool) :
    BulkMutator :=
  let unresolved := (s.mutations_.zip s.annotations_).filter
    fun p => !p.2.has_mutation_result
  let toRetry := unresolved.filter fun p => p.2.is_idempotent && retryAllowed
  let toFail := unresolved.filter fun p => !(p.2.is_idempotent && retryAllowed)
  { s with
    mutations_ := []
    annotations_ := []
    pending_mutations_ := s.pending_mutations_ ++ toRetry.map Prod.fst
    pending_annotations_ := s.pending_annotations_ ++ toRetry.map Prod.snd
    failures_ := s.failures_ ++ toFail.map fun p =>
      { mut_ := p.1
        status := if p.2.is_idempotent then budgetExhaustedStatus
                  else unknownOutcomeStatus
        original_index := p.2.original_index } }

/-- Modelled from the spec (section 4.1, `ExtractFinalFailures`, body in
the missing `bulk_mutator.cc`): move every annotation still present in the
Pending Set into Accumulated Failures tagged with the budget-exhausted
status, then return and clear Accumulated Failures.  The returned records
are also appended to the `extractedFailures` ghost. -/
def BulkMutator.ExtractFinalFailures (s : BulkMutator) :
    List FailedMutation × BulkMutator :=
  let giveUp := (s.pending_mutations_.zip s.pending_annotations_).map fun p =>
    { mut_ := p.1, status := budgetExhaustedStatus
      original_index := p.2.original_index : FailedMutation }
  let result := s.failures_ ++ giveUp
  (result,
   { s with
     failures_ := []
     pending_mutations_ := []
     pending_annotations_ := []
     extractedFailures := s.extractedFailures ++ result })

/-- Modelled from the spec (section 4.1, `MakeOneRequest`): one synchronous
round; `PrepareForRequest`, feed each received chunk to `ProcessResponse`,
then `FinishRequest`.  The transport behavior of the round is represented
by the list of chunks it delivered; `retryAllowed` is the Retry Policy
budget answer consulted by `FinishRequest`. -/
def BulkMutator.MakeOneRequest (s : BulkMutator)
    (chunks : List MutateRowsResponse) (retryAllowed : Bool) : BulkMutator :=
  (chunks.foldl BulkMutator.ProcessResponse s.PrepareForRequest).FinishRequest
    retryAllowed

/-- One step of the calling protocol of spec sections 4.1 and 5: either a
full round (one `PrepareForRequest`, the processed chunks, one
`FinishRequest`; one round at a time), or a call to
`ExtractFinalFailures`. -/
inductive MutatorStep where
  | round (chunks : List MutateRowsResponse) (retryAllowed : Bool)
  | extract
deriving DecidableEq

/-- Apply one protocol step to the mutator state. -/
def applyMutatorStep (s : BulkMutator) : MutatorStep → BulkMutator
  | MutatorStep.round chunks rt => s.MakeOneRequest chunks rt
  | MutatorStep.extract => s.ExtractFinalFailures.2

/-- Run the mutator from construction through a sequence of protocol
steps. -/
def runMutator (policy : SingleRowMutation → Bool)
    (batch : List SingleRowMutation) (steps : List MutatorStep) : BulkMutator :=
  steps.foldl applyMutatorStep (BulkMutator.init policy batch)

/-- Run the mutator from an arbitrary state through protocol steps. -/
def runMutatorFrom (s : BulkMutator) (steps : List MutatorStep) : BulkMutator :=
  steps.foldl applyMutatorStep s

/-- Events delivered by the completion queue for one asynchronous round:
response chunks, then the stream completion carrying the final call
outcome.  The spec (section 6, scheduler contract) guarantees that the
completion event fires exactly once, after all chunks. -/
inductive StreamEvent where
  | chunk (response : MutateRowsResponse)
  | finished (retryAllowed : Bool)
deriving DecidableEq

/-- Embedding of the per-event behavior registered by
`AsyncBulkMutator::Start` (`bulk_mutator.h` lines 122-159): a chunk event
runs `ProcessResponse`; the completion event runs `FinishedCallback`,
which runs `FinishRequest` first and only then invokes the user callback.
The second component of the accumulator collects the mutator states
observed by the user callback at each of its invocations. -/
def asyncEventStep (acc : BulkMutator × List BulkMutator)
    (ev : StreamEvent) : BulkMutator × List BulkMutator :=
  match ev with
  | StreamEvent.chunk r => (acc.1.ProcessResponse r, acc.2)
  | StreamEvent.finished rt =>
    let t := acc.1.FinishRequest rt
    (t, acc.2 ++ [t])

/-- Embedding of `AsyncBulkMutator::Start` (`bulk_mutator.h` lines
122-133): `PrepareForRequest`, then the completion queue delivers the
stream events.  The second component returns the states observed by the
user callback, so its length is the number of times the callback fired. -/
def AsyncStart (s : BulkMutator) (events : List StreamEvent) :
    BulkMutator × List BulkMutator :=
  events.foldl asyncEventStep (s.PrepareForRequest, [])

/-- One individual mutation inside a single-row request, mirroring
`google::bigtable::v2::Mutation`; its content is opaque to the claims and
only classified by the idempotency policy. -/
structure Mutation where
  payload : Nat
deriving DecidableEq

/-- Request proto for `MutateRow`, mirroring
`google::bigtable::v2::MutateRowRequest` with the fields the claims name:
the two common table-operation fields plus the row key and mutation list
moved in from the `SingleRowMutation`. -/
structure MutateRowRequest where
  app_profile_id : String
  table_name : String
  row_key : String
  mutations : List Mutation
deriving DecidableEq

/-- From `table.h` lines 56-62: set the `app_profile_id` and `table_name`
fields of a request; the function touches nothing else. -/
def SetCommonTableOperationRequest (request : MutateRowRequest)
    (app_profile_id : String) (table_name : String) : MutateRowRequest :=
  { request with app_profile_id := app_profile_id, table_name := table_name }

/-- Modelled from the spec and the comment on `TableName` (`table.h` lines
41-49): the client knows the project id and instance id, and
`InstanceName` (defined in `data_client.h`, not among the sources) returns
`projects/<PROJECT_ID>/instances/<INSTANCE_ID>`. -/
structure DataClient where
  project_id : String
  instance_id : String
deriving DecidableEq

/-- Modelled from the spec: `InstanceName` is defined outside the given
sources; the comment on `TableName` fixes its shape. -/
def InstanceName (client : DataClient) : String :=
  "projects/" ++ client.project_id ++ "/instances/" ++ client.instance_id

/-- From `table.h` lines 50-53: the full table name is the instance name
followed by `/tables/` and the table id. -/
def TableName (client : DataClient) (table_id : String) : String :=
  InstanceName client ++ "/tables/" ++ table_id

/-- From `table.h` lines 85-98: the parts of the `noex::Table` state the
claims mention; the constructor stores `TableName(client, table_id)`. -/
structure NoexTable where
  client : DataClient
  app_profile_id : String
  table_name : String
deriving DecidableEq

/-- From `table.h` lines 87-98: construct a `noex::Table`. -/
def NoexTable.make (client : DataClient) (app_profile_id : String)
    (table_id : String) : NoexTable :=
  { client := client, app_profile_id := app_profile_id
    table_name := TableName client table_id }

/-- From `table.h` lines 174-178: `AsyncApply` classifies the single-row
mutation as idempotent exactly when `std::all_of` over the built request
finds every individual mutation idempotent under the policy. -/
def asyncApplyIsIdempotent (policy : Mutation → Bool)
    (request : MutateRowRequest) : Bool :=
  request.mutations.all policy

/-- Modelled from the spec: `internal::ConstantIdempotencyPolicy`
(`async_retry_unary_rpc.h`, not among the sources) stores the boolean
computed before the retry loop and answers every idempotency query with
it. -/
structure ConstantIdempotencyPolicy where
  value : Bool
deriving DecidableEq

/-- Modelled from the spec: the constant policy ignores the mutation it is
asked about. -/
def ConstantIdempotencyPolicy.is_idempotent (p : ConstantIdempotencyPolicy)
    (m : Mutation) : Bool :=
  p.value

/-- Original indices of the Current Set entries whose result has not yet
been observed: the logical Current Set state of spec Invariant I1. -/
def unresolvedIndices (l : List Annotations) : List Nat :=
  (l.filter fun a => !a.has_mutation_result).map Annotations.original_index

/-- Original indices of the Pending Set. -/
def pendingIndices (s : BulkMutator) : List Nat :=
  s.pending_annotations_.map Annotations.original_index

/-- Original indices of the Accumulated Failures not yet extracted. -/
def failureIndices (s : BulkMutator) : List Nat :=
  s.failures_.map FailedMutation.original_index

/-- Original indices of the failures already returned to the caller. -/
def extractedIndices (s : BulkMutator) : List Nat :=
  s.extractedFailures.map FailedMutation.original_index

/-- One occurrence per original-batch entry, one list section per state of
spec Invariant I1 (Current Set, Pending Set, Accumulated Failures with the
already-extracted ones, resolved-successfully-and-discarded). -/
def trackedIndices (s : BulkMutator) : List Nat :=
  unresolvedIndices s.annotations_ ++ pendingIndices s ++ failureIndices s
    ++ extractedIndices s ++ s.resolvedSuccesses

/-- Structural invariant of the mutator state: the entry and annotation
lists travel in lockstep, pending annotations carry no result, every
original index is tracked exactly once (Invariant I1), and every
annotation or failure record points back at its own entry in the original
batch (Invariant I2). -/
structure MutatorInv (batch : List SingleRowMutation) (s : BulkMutator) :
    Prop where
  len_cur : s.mutations_.length = s.annotations_.length
  len_pend : s.pending_mutations_.length = s.pending_annotations_.length
  pend_unres : ∀ a ∈ s.pending_annotations_, a.has_mutation_result = false
  perm : (trackedIndices s).Perm (List.range batch.length)
  pair_cur : ∀ p ∈ s.mutations_.zip s.annotations_,
    batch[p.2.original_index]? = some p.1
  pair_pend : ∀ p ∈ s.pending_mutations_.zip s.pending_annotations_,
    batch[p.2.original_index]? = some p.1
  pair_fail : ∀ f ∈ s.failures_, batch[f.original_index]? = some f.mut_
  pair_extr : ∀ f ∈ s.extractedFailures, batch[f.original_index]? = some f.mut_

/-- Decidable statement of spec Invariant I2 over one mutator state: every
annotation travelling with an entry (in the Current Set or the Pending
Set) and every failure record (accumulated or already extracted) carries
an original index that points back at exactly its own entry in the
original batch. -/
def indexFidelity (batch : List SingleRowMutation) (s : BulkMutator) : Bool :=
  ((s.mutations_.zip s.annotations_).all fun p =>
    decide (batch[p.2.original_index]? = some p.1)) &&
  ((s.pending_mutations_.zip s.pending_annotations_).all fun p =>
    decide (batch[p.2.original_index]? = some p.1)) &&
  ((s.failures_ ++ s.extractedFailures).all fun f =>
    decide (batch[f.original_index]? = some f.mut_))

/-- A mid-round state: run some protocol steps, open a new round with
`PrepareForRequest`, and process a prefix of the round's response
chunks. -/
def midRoundState (policy : SingleRowMutation → Bool)
    (batch : List SingleRowMutation) (steps0 : List MutatorStep)
    (chunks1 : List MutateRowsResponse) : BulkMutator :=
  chunks1.foldl BulkMutator.ProcessResponse
    (runMutator policy batch steps0).PrepareForRequest

/-- Continuation of a run after one response pair is processed on a
mid-round state: the remaining chunks of the round, the round's
`FinishRequest`, then arbitrary further protocol steps. -/
def continueRound (s : BulkMutator) (idx : Nat) (st : RpcStatus)
    (chunks2 : List MutateRowsResponse) (rt : Bool)
    (steps1 : List MutatorStep) : BulkMutator :=
  runMutatorFrom ((chunks2.foldl BulkMutator.ProcessResponse
    (s.processOneEntry idx st)).FinishRequest rt) steps1

theorem mem_zip_set {α β : Type} {m : List α} {l : List β} {idx : Nat}
    {x : β} {p : α × β} (hp : p ∈ m.zip (l.set idx x)) :
    p ∈ m.zip l ∨ (p.2 = x ∧ m[idx]? = some p.1) := by
  induction m generalizing l idx with
  | nil => simp at hp
  | cons e m ih =>
    cases l with
    | nil => simp at hp
    | cons b l =>
      cases idx with
      | zero =>
        rw [List.set_cons_zero, List.zip_cons_cons] at hp
        rcases List.mem_cons.mp hp with h | h
        · right
          subst h
          exact ⟨rfl, by simp⟩
        · exact Or.inl (List.mem_cons_of_mem _ h)
      | succ n =>
        rw [List.set_cons_succ, List.zip_cons_cons] at hp
        rcases List.mem_cons.mp hp with h | h
        · subst h
          exact Or.inl (List.mem_cons_self _ _)
        · rcases ih h with h2 | h2
          · exact Or.inl (List.mem_cons_of_mem _ h2)
          · exact Or.inr ⟨h2.1, by simpa using h2.2⟩

theorem mem_zip_of_getElem? {α β : Type} {l₁ : List α} {l₂ : List β}
    {i : Nat} {a : α} {b : β} (h1 : l₁[i]? = some a) (h2 : l₂[i]? = some b) :
    (a, b) ∈ l₁.zip l₂ :=
  List.getElem?_mem (List.getElem?_zip_eq_some.mpr ⟨h1, h2⟩)

theorem zip_map_fst_snd {α β : Type} (l : List (α × β)) :
    (l.map Prod.fst).zip (l.map Prod.snd) = l := by
  induction l with
  | nil => rfl
  | cons p t ih => simp [List.zip_cons_cons, ih]

theorem map_filter_comm {α β : Type} (f : α → β) (q : β → Bool)
    (l : List α) :
    (l.filter fun x => q (f x)).map f = (l.map f).filter q := by
  induction l with
  | nil => rfl
  | cons x t ih =>
    by_cases h : q (f x) <;> simp [List.filter_cons, h, ih]

theorem count_unresolvedIndices_set (l : List Annotations) (idx : Nat)
    (a : Annotations) (hget : l[idx]? = some a)
    (hres : a.has_mutation_result = false) (n : Nat) :
    (unresolvedIndices l).count n =
      (unresolvedIndices
        (l.set idx { a with has_mutation_result := true })).count n
      + (if a.original_index = n then 1 else 0) := by
  induction l generalizing idx with
  | nil => simp at hget
  | cons x t ih =>
    cases idx with
    | zero =>
      have hx : x = a := by simpa using hget
      subst hx
      simp [unresolvedIndices, List.filter_cons, hres, List.count_cons]
    | succ k =>
      have hget' : t[k]? = some a := by simpa using hget
      have := ih k hget'
      by_cases h : x.has_mutation_result <;>
        simp [unresolvedIndices, List.filter_cons, h, List.count_cons,
          List.set_cons_succ] at this ⊢ <;> omega

theorem inv_init (policy : SingleRowMutation → Bool)
    (batch : List SingleRowMutation) :
    MutatorInv batch (BulkMutator.init policy batch) := by
  refine ⟨rfl, ?_, ?_, ?_, ?_, ?_, ?_, ?_⟩
  · simp [BulkMutator.init]
  · intro a ha
    simp [BulkMutator.init] at ha
    obtain ⟨p, q, _, heq⟩ := ha
    subst heq
    rfl
  · simp [trackedIndices, unresolvedIndices, pendingIndices, failureIndices,
      extractedIndices, BulkMutator.init, List.map_map]
    have h : (fun p : Nat × SingleRowMutation => p.1) = Prod.fst := rfl
    rw [show ((Annotations.original_index ∘ fun p : Nat × SingleRowMutation =>
        { original_index := p.1, is_idempotent := policy p.2,
          has_mutation_result := false }) = Prod.fst) from rfl,
      List.enum_map_fst]
  · intro p hp
    simp [BulkMutator.init] at hp
  · intro p hp
    simp only [BulkMutator.init] at hp
    obtain ⟨i, hi⟩ := List.mem_iff_getElem?.mp hp
    rw [List.getElem?_zip_eq_some] at hi
    obtain ⟨hb, he⟩ := hi
    rw [List.getElem?_map, List.getElem?_enum, hb] at he
    simp at he
    rw [← he]
    simpa using hb
  · intro f hf
    simp [BulkMutator.init] at hf
  · intro f hf
    simp [BulkMutator.init] at hf

theorem inv_prepare {batch : List SingleRowMutation} {s : BulkMutator}
    (h : MutatorInv batch s) (hm : s.mutations_ = [])
    (ha : s.annotations_ = []) :
    MutatorInv batch s.PrepareForRequest := by
  have hfilter : s.pending_annotations_.filter
      (fun a => !a.has_mutation_result) = s.pending_annotations_ :=
    List.filter_eq_self.mpr fun a hmem => by
      rw [h.pend_unres a hmem]; rfl
  refine ⟨?_, rfl, ?_, ?_, ?_, ?_, ?_, ?_⟩
  · exact h.len_pend
  · intro a hmem
    simp [BulkMutator.PrepareForRequest] at hmem
  · simpa [trackedIndices, unresolvedIndices, pendingIndices, failureIndices,
      extractedIndices, BulkMutator.PrepareForRequest, ha, hfilter] using h.perm
  · intro p hp
    exact h.pair_pend p hp
  · intro p hp
    simp [BulkMutator.PrepareForRequest] at hp
  · intro f hf
    exact h.pair_fail f hf
  · intro f hf
    exact h.pair_extr f hf

theorem inv_mark_success {batch : List SingleRowMutation} {s : BulkMutator}
    {idx : Nat} {a : Annotations} {e : SingleRowMutation}
    (h : MutatorInv batch s)
    (h1 : s.annotations_[idx]? = some a) (h2 : s.mutations_[idx]? = some e)
    (hres : a.has_mutation_result = false) :
    MutatorInv batch { s with
      annotations_ := s.annotations_.set idx
        { a with has_mutation_result := true }
      resolvedSuccesses := s.resolvedSuccesses ++ [a.original_index] } := by
  have hpair_ea : batch[a.original_index]? = some e :=
    h.pair_cur (e, a) (mem_zip_of_getElem? h2 h1)
  refine ⟨?_, h.len_pend, h.pend_unres, ?_, ?_, h.pair_pend, h.pair_fail,
    h.pair_extr⟩
  · simpa using h.len_cur
  · refine List.Perm.trans (List.perm_iff_count.mpr fun n => ?_) h.perm
    have hcnt := count_unresolvedIndices_set s.annotations_ idx a h1 hres n
    by_cases hc : a.original_index = n
    · subst hc
      simp [trackedIndices, pendingIndices, failureIndices, extractedIndices,
        List.count_append, List.count_cons, List.count_nil] at hcnt ⊢
      omega
    · have hc2 : ¬(n = a.original_index) := fun hh => hc hh.symm
      simp [trackedIndices, pendingIndices, failureIndices, extractedIndices,
        List.count_append, List.count_cons, List.count_nil, hc, hc2]
        at hcnt ⊢
      omega
  · intro p hp
    rcases mem_zip_set hp with hold | ⟨hp2, hp1⟩
    · exact h.pair_cur p hold
    · rw [h2] at hp1
      have hpe : p.1 = e := (Option.some.inj hp1).symm
      rw [hp2, hpe]
      exact hpair_ea

theorem inv_mark_fail {batch : List SingleRowMutation} {s : BulkMutator}
    {idx : Nat} {a : Annotations} {e : SingleRowMutation}
    {st : RpcStatus} (h : MutatorInv batch s)
    (h1 : s.annotations_[idx]? = some a) (h2 : s.mutations_[idx]? = some e)
    (hres : a.has_mutation_result = false) :
    MutatorInv batch { s with
      annotations_ := s.annotations_.set idx
        { a with has_mutation_result := true }
      failures_ := s.failures_ ++
        [{ mut_ := e, status := st, original_index := a.original_index }] } := by
  have hpair_ea : batch[a.original_index]? = some e :=
    h.pair_cur (e, a) (mem_zip_of_getElem? h2 h1)
  refine ⟨?_, h.len_pend, h.pend_unres, ?_, ?_, h.pair_pend, ?_, h.pair_extr⟩
  · simpa using h.len_cur
  · refine List.Perm.trans (List.perm_iff_count.mpr fun n => ?_) h.perm
    have hcnt := count_unresolvedIndices_set s.annotations_ idx a h1 hres n
    by_cases hc : a.original_index = n
    · subst hc
      simp [trackedIndices, pendingIndices, failureIndices, extractedIndices,
        List.count_append, List.count_cons, List.count_nil] at hcnt ⊢
      omega
    · have hc2 : ¬(n = a.original_index) := fun hh => hc hh.symm
      simp [trackedIndices, pendingIndices, failureIndices, extractedIndices,
        List.count_append, List.count_cons, List.count_nil, hc, hc2]
        at hcnt ⊢
      omega
  · intro p hp
    rcases mem_zip_set hp with hold | ⟨hp2, hp1⟩
    · exact h.pair_cur p hold
    · rw [h2] at hp1
      have hpe : p.1 = e := (Option.some.inj hp1).symm
      rw [hp2, hpe]
      exact hpair_ea
  · intro f hf
    rcases List.mem_append.mp hf with hold | hnew
    · exact h.pair_fail f hold
    · rw [List.mem_singleton.mp hnew]
      exact hpair_ea

theorem inv_mark_requeue {batch : List SingleRowMutation} {s : BulkMutator}
    {idx : Nat} {a : Annotations} {e : SingleRowMutation}
    (h : MutatorInv batch s)
    (h1 : s.annotations_[idx]? = some a) (h2 : s.mutations_[idx]? = some e)
    (hres : a.has_mutation_result = false) :
    MutatorInv batch { s with
      annotations_ := s.annotations_.set idx
        { a with has_mutation_result := true }
      pending_mutations_ := s.pending_mutations_ ++ [e]
      pending_annotations_ := s.pending_annotations_ ++
        [{ a with has_mutation_result := false }] } := by
  have hpair_ea : batch[a.original_index]? = some e :=
    h.pair_cur (e, a) (mem_zip_of_getElem? h2 h1)
  have hzip : (s.pending_mutations_ ++ [e]).zip (s.pending_annotations_ ++
      [{ a with has_mutation_result := false }]) =
      s.pending_mutations_.zip s.pending_annotations_ ++
      [(e, { a with has_mutation_result := false })] :=
    List.zip_append h.len_pend
  refine ⟨?_, ?_, ?_, ?_, ?_, ?_, h.pair_fail, h.pair_extr⟩
  · simpa using h.len_cur
  · simpa using h.len_pend
  · intro x hx
    rcases List.mem_append.mp hx with hold | hnew
    · exact h.pend_unres x hold
    · rw [List.mem_singleton.mp hnew]
  · refine List.Perm.trans (List.perm_iff_count.mpr fun n => ?_) h.perm
    have hcnt := count_unresolvedIndices_set s.annotations_ idx a h1 hres n
    by_cases hc : a.original_index = n
    · subst hc
      simp [trackedIndices, pendingIndices, failureIndices, extractedIndices,
        List.count_append, List.count_cons, List.count_nil] at hcnt ⊢
      omega
    · have hc2 : ¬(n = a.original_index) := fun hh => hc hh.symm
      simp [trackedIndices, pendingIndices, failureIndices, extractedIndices,
        List.count_append, List.count_cons, List.count_nil, hc, hc2]
        at hcnt ⊢
      omega
  · intro p hp
    rcases mem_zip_set hp with hold | ⟨hp2, hp1⟩
    · exact h.pair_cur p hold
    · rw [h2] at hp1
      have hpe : p.1 = e := (Option.some.inj hp1).symm
      rw [hp2, hpe]
      exact hpair_ea
  · intro p hp
    rw [hzip] at hp
    rcases List.mem_append.mp hp with hold | hnew
    · exact h.pair_pend p hold
    · rw [List.mem_singleton.mp hnew]
      exact hpair_ea

theorem inv_processOneEntry {batch : List SingleRowMutation}
    {s : BulkMutator} (h : MutatorInv batch s) (idx : Nat) (st : RpcStatus) :
    MutatorInv batch (s.processOneEntry idx st) := by
  unfold BulkMutator.processOneEntry
  cases h1 : s.annotations_[idx]? with
  | none =>
    cases h2 : s.mutations_[idx]? <;> exact h
  | some a =>
    cases h2 : s.mutations_[idx]? with
    | none => exact h
    | some e =>
      dsimp only
      by_cases hres : a.has_mutation_result
      · rw [if_pos hres]
        exact h
      · have hres' : a.has_mutation_result = false := by
          simpa using hres
        rw [if_neg hres]
        by_cases hok : st.code = StatusCode.ok
        · rw [if_pos hok]
          exact inv_mark_success h h1 h2 hres'
        · rw [if_neg hok]
          by_cases hret : st.code.isRetryable = false
          · rw [if_pos hret]
            exact inv_mark_fail h h1 h2 hres'
          · rw [if_neg hret]
            by_cases hidem : a.is_idempotent
            · rw [if_pos hidem]
              exact inv_mark_requeue h h1 h2 hres'
            · rw [if_neg hidem]
              exact inv_mark_fail h h1 h2 hres'

theorem inv_ProcessResponse {batch : List SingleRowMutation}
    {s : BulkMutator} (h : MutatorInv batch s)
    (response : MutateRowsResponse) :
    MutatorInv batch (s.ProcessResponse response) := by
  unfold BulkMutator.ProcessResponse
  induction response generalizing s with
  | nil => exact h
  | cons r t ih => exact ih (inv_processOneEntry h r.index r.status)


theorem filter_snd_zip {l₁ : List SingleRowMutation} {l₂ : List Annotations}
    (h : l₂.length ≤ l₁.length) (q : Annotations → Bool) :
    ((l₁.zip l₂).filter fun p => q p.2).map Prod.snd = l₂.filter q := by
  have h1 := map_filter_comm Prod.snd q (l₁.zip l₂)
  rw [List.map_snd_zip _ _ h] at h1
  exact h1

theorem map_origIndex_filter_unres {l₁ : List SingleRowMutation}
    {l₂ : List Annotations} (h : l₂.length ≤ l₁.length) :
    ((l₁.zip l₂).filter fun p => !p.2.has_mutation_result).map
      (fun p => p.2.original_index) = unresolvedIndices l₂ := by
  have h2 := filter_snd_zip h fun a => !a.has_mutation_result
  unfold unresolvedIndices
  conv_rhs => rw [← h2]
  rw [List.map_map]
  rfl

theorem map_origIndex_zip_snd {l₁ : List SingleRowMutation}
    {l₂ : List Annotations} (h : l₂.length ≤ l₁.length) :
    (l₁.zip l₂).map (fun p => p.2.original_index) =
      l₂.map Annotations.original_index := by
  have hsnd : (l₁.zip l₂).map Prod.snd = l₂ := List.map_snd_zip _ _ h
  conv_rhs => rw [← hsnd]
  rw [List.map_map]
  rfl

theorem inv_FinishRequest {batch : List SingleRowMutation} {s : BulkMutator}
    (h : MutatorInv batch s) (rt : Bool) :
    MutatorInv batch (s.FinishRequest rt) := by
  have hlen : s.annotations_.length ≤ s.mutations_.length :=
    le_of_eq h.len_cur.symm
  have hperm_split : (((s.mutations_.zip s.annotations_).filter
        (fun p => !p.2.has_mutation_result)).filter
          (fun p => p.2.is_idempotent && rt) ++
      ((s.mutations_.zip s.annotations_).filter
        (fun p => !p.2.has_mutation_result)).filter
          (fun p => !(p.2.is_idempotent && rt))).Perm
      ((s.mutations_.zip s.annotations_).filter
        (fun p => !p.2.has_mutation_result)) :=
    List.filter_append_perm _ _
  have hcount_split : ∀ n : Nat,
      ((((s.mutations_.zip s.annotations_).filter
          (fun p => !p.2.has_mutation_result)).filter
            (fun p => p.2.is_idempotent && rt)).map
              (fun p => p.2.original_index)).count n +
      ((((s.mutations_.zip s.annotations_).filter
          (fun p => !p.2.has_mutation_result)).filter
            (fun p => !(p.2.is_idempotent && rt))).map
              (fun p => p.2.original_index)).count n =
      (unresolvedIndices s.annotations_).count n := by
    intro n
    have hp := (hperm_split.map fun p => p.2.original_index).count_eq n
    rw [List.map_append, List.count_append] at hp
    rw [hp, map_origIndex_filter_unres hlen]
  refine ⟨rfl, ?_, ?_, ?_, ?_, ?_, ?_, h.pair_extr⟩
  · simp [BulkMutator.FinishRequest, h.len_pend]
  · intro a ha
    rcases List.mem_append.mp ha with hold | hnew
    · exact h.pend_unres a hold
    · obtain ⟨p, hp, heq⟩ := List.mem_map.mp hnew
      have hpu := (List.mem_filter.mp (List.mem_filter.mp hp).1).2
      rw [← heq]
      simpa using hpu
  · refine List.Perm.trans (List.perm_iff_count.mpr fun n => ?_) h.perm
    have hsplit := hcount_split n
    simp only [trackedIndices, pendingIndices, failureIndices,
      extractedIndices, BulkMutator.FinishRequest, unresolvedIndices,
      List.filter_nil, List.map_nil, List.map_append, List.map_map,
      List.count_append, List.nil_append, Function.comp_def] at hsplit ⊢
    omega
  · intro p hp
    simp [BulkMutator.FinishRequest] at hp
  · intro p hp
    rw [show (s.FinishRequest rt).pending_mutations_ =
        s.pending_mutations_ ++
          (((s.mutations_.zip s.annotations_).filter
            (fun p => !p.2.has_mutation_result)).filter
              (fun p => p.2.is_idempotent && rt)).map Prod.fst from rfl,
      show (s.FinishRequest rt).pending_annotations_ =
        s.pending_annotations_ ++
          (((s.mutations_.zip s.annotations_).filter
            (fun p => !p.2.has_mutation_result)).filter
              (fun p => p.2.is_idempotent && rt)).map Prod.snd from rfl,
      List.zip_append h.len_pend, zip_map_fst_snd] at hp
    rcases List.mem_append.mp hp with hold | hnew
    · exact h.pair_pend p hold
    · exact h.pair_cur p (List.mem_filter.mp (List.mem_filter.mp hnew).1).1
  · intro f hf
    rcases List.mem_append.mp hf with hold | hnew
    · exact h.pair_fail f hold
    · obtain ⟨p, hp, heq⟩ := List.mem_map.mp hnew
      have := h.pair_cur p (List.mem_filter.mp (List.mem_filter.mp hp).1).1
      rw [← heq]
      exact this

theorem inv_ExtractFinalFailures {batch : List SingleRowMutation}
    {s : BulkMutator} (h : MutatorInv batch s) :
    MutatorInv batch s.ExtractFinalFailures.2 := by
  have hlen : s.pending_annotations_.length ≤ s.pending_mutations_.length :=
    le_of_eq h.len_pend.symm
  refine ⟨h.len_cur, rfl, ?_, ?_, h.pair_cur, ?_, ?_, ?_⟩
  · intro a ha
    simp [BulkMutator.ExtractFinalFailures] at ha
  · refine List.Perm.trans (List.perm_iff_count.mpr fun n => ?_) h.perm
    have hgive := congrArg (List.count n) (map_origIndex_zip_snd hlen)
    simp only [trackedIndices, pendingIndices, failureIndices,
      extractedIndices, BulkMutator.ExtractFinalFailures, List.map_nil,
      List.map_append, List.map_map, List.count_append, List.count_nil,
      Function.comp_def] at hgive ⊢
    omega
  · intro p hp
    simp [BulkMutator.ExtractFinalFailures] at hp
  · intro f hf
    simp [BulkMutator.ExtractFinalFailures] at hf
  · intro f hf
    rcases List.mem_append.mp hf with hold | hnew
    · exact h.pair_extr f hold
    · rcases List.mem_append.mp hnew with hfail | hgive
      · exact h.pair_fail f hfail
      · obtain ⟨p, hp, heq⟩ := List.mem_map.mp hgive
        have := h.pair_pend p hp
        rw [← heq]
        exact this

theorem inv_foldResponses {batch : List SingleRowMutation}
    (chunks : List MutateRowsResponse) :
    ∀ s : BulkMutator, MutatorInv batch s →
      MutatorInv batch (chunks.foldl BulkMutator.ProcessResponse s) := by
  induction chunks with
  | nil => exact fun s h => h
  | cons c t ih => exact fun s h => ih _ (inv_ProcessResponse h c)

theorem inv_applyMutatorStep {batch : List SingleRowMutation}
    {s : BulkMutator} (h : MutatorInv batch s) (hm : s.mutations_ = [])
    (ha : s.annotations_ = []) (step : MutatorStep) :
    MutatorInv batch (applyMutatorStep s step) ∧
      (applyMutatorStep s step).mutations_ = [] ∧
      (applyMutatorStep s step).annotations_ = [] := by
  cases step with
  | round chunks rt =>
    exact ⟨inv_FinishRequest
      (inv_foldResponses chunks _ (inv_prepare h hm ha)) rt, rfl, rfl⟩
  | extract =>
    exact ⟨inv_ExtractFinalFailures h, hm, ha⟩

theorem inv_runMutatorFrom {batch : List SingleRowMutation}
    (steps : List MutatorStep) :
    ∀ s : BulkMutator, MutatorInv batch s → s.mutations_ = [] →
      s.annotations_ = [] →
      MutatorInv batch (runMutatorFrom s steps) ∧
        (runMutatorFrom s steps).mutations_ = [] ∧
        (runMutatorFrom s steps).annotations_ = [] := by
  induction steps with
  | nil => exact fun s h hm ha => ⟨h, hm, ha⟩
  | cons st t ih =>
    intro s h hm ha
    obtain ⟨h2, hm2, ha2⟩ := inv_applyMutatorStep h hm ha st
    exact ih _ h2 hm2 ha2

theorem inv_runMutator (policy : SingleRowMutation → Bool)
    (batch : List SingleRowMutation) (steps : List MutatorStep) :
    MutatorInv batch (runMutator policy batch steps) ∧
      (runMutator policy batch steps).mutations_ = [] ∧
      (runMutator policy batch steps).annotations_ = [] :=
  inv_runMutatorFrom steps _ (inv_init policy batch) rfl rfl

theorem fe_processOneEntry (s : BulkMutator) (idx : Nat) (st : RpcStatus)
    {i : Nat} (hi : i ∈ failureIndices s ++ extractedIndices s) :
    i ∈ failureIndices (s.processOneEntry idx st) ++
      extractedIndices (s.processOneEntry idx st) := by
  unfold BulkMutator.processOneEntry
  cases h1 : s.annotations_[idx]? with
  | none => cases h2 : s.mutations_[idx]? <;> exact hi
  | some a =>
    cases h2 : s.mutations_[idx]? with
    | none => exact hi
    | some e =>
      dsimp only
      rcases List.mem_append.mp hi with hf | he
      · by_cases hres : a.has_mutation_result
        · rw [if_pos hres]
          exact List.mem_append_left _ hf
        · rw [if_neg hres]
          by_cases hok : st.code = StatusCode.ok
          · rw [if_pos hok]
            exact List.mem_append_left _ hf
          · rw [if_neg hok]
            by_cases hret : st.code.isRetryable = false
            · rw [if_pos hret]
              refine List.mem_append_left _ ?_
              simp only [failureIndices, List.map_append] at hf ⊢
              exact List.mem_append_left _ hf
            · rw [if_neg hret]
              by_cases hidem : a.is_idempotent
              · rw [if_pos hidem]
                exact List.mem_append_left _ hf
              · rw [if_neg hidem]
                refine List.mem_append_left _ ?_
                simp only [failureIndices, List.map_append] at hf ⊢
                exact List.mem_append_left _ hf
      · by_cases hres : a.has_mutation_result
        · rw [if_pos hres]
          exact List.mem_append_right _ he
        · rw [if_neg hres]
          by_cases hok : st.code = StatusCode.ok
          · rw [if_pos hok]
            exact List.mem_append_right _ he
          · rw [if_neg hok]
            by_cases hret : st.code.isRetryable = false
            · rw [if_pos hret]
              exact List.mem_append_right _ he
            · rw [if_neg hret]
              by_cases hidem : a.is_idempotent
              · rw [if_pos hidem]
                exact List.mem_append_right _ he
              · rw [if_neg hidem]
                exact List.mem_append_right _ he

theorem fe_foldResponses (chunks : List MutateRowsResponse) :
    ∀ (s : BulkMutator) {i : Nat},
      i ∈ failureIndices s ++ extractedIndices s →
      i ∈ failureIndices (chunks.foldl BulkMutator.ProcessResponse s) ++
        extractedIndices (chunks.foldl BulkMutator.ProcessResponse s) := by
  have hone : ∀ (r : MutateRowsResponse) (s : BulkMutator) {i : Nat},
      i ∈ failureIndices s ++ extractedIndices s →
      i ∈ failureIndices (s.ProcessResponse r) ++
        extractedIndices (s.ProcessResponse r) := by
    intro r
    unfold BulkMutator.ProcessResponse
    induction r with
    | nil => exact fun s _ hi => hi
    | cons x t ih =>
      exact fun s i hi => ih _ (fe_processOneEntry s x.index x.status hi)
  induction chunks with
  | nil => exact fun s _ hi => hi
  | cons c t ih => exact fun s i hi => ih _ (hone c s hi)

theorem fe_FinishRequest (s : BulkMutator) (rt : Bool) {i : Nat}
    (hi : i ∈ failureIndices s ++ extractedIndices s) :
    i ∈ failureIndices (s.FinishRequest rt) ++
      extractedIndices (s.FinishRequest rt) := by
  rcases List.mem_append.mp hi with hf | he
  · refine List.mem_append_left _ ?_
    simp only [failureIndices, BulkMutator.FinishRequest, List.map_append]
    exact List.mem_append_left _ hf
  · exact List.mem_append_right _ he

theorem fe_ExtractFinalFailures (s : BulkMutator) {i : Nat}
    (hi : i ∈ failureIndices s ++ extractedIndices s) :
    i ∈ failureIndices s.ExtractFinalFailures.2 ++
      extractedIndices s.ExtractFinalFailures.2 := by
  refine List.mem_append_right _ ?_
  simp only [extractedIndices, BulkMutator.ExtractFinalFailures,
    List.map_append]
  rcases List.mem_append.mp hi with hf | he
  · exact List.mem_append_right _ (List.mem_append_left _ hf)
  · exact List.mem_append_left _ he

theorem fe_runMutatorFrom (steps : List MutatorStep) :
    ∀ (s : BulkMutator) {i : Nat},
      i ∈ failureIndices s ++ extractedIndices s →
      i ∈ failureIndices (runMutatorFrom s steps) ++
        extractedIndices (runMutatorFrom s steps) := by
  induction steps with
  | nil => exact fun s _ hi => hi
  | cons st t ih =>
    intro s i hi
    refine ih _ ?_
    cases st with
    | round chunks rt =>
      refine fe_FinishRequest _ rt (fe_foldResponses chunks _ ?_)
      exact hi
    | extract => exact fe_ExtractFinalFailures s hi

theorem res_processOneEntry (s : BulkMutator) (idx : Nat) (st : RpcStatus)
    {i : Nat} (hi : i ∈ s.resolvedSuccesses) :
    i ∈ (s.processOneEntry idx st).resolvedSuccesses := by
  unfold BulkMutator.processOneEntry
  cases h1 : s.annotations_[idx]? with
  | none => cases h2 : s.mutations_[idx]? <;> exact hi
  | some a =>
    cases h2 : s.mutations_[idx]? with
    | none => exact hi
    | some e =>
      dsimp only
      by_cases hres : a.has_mutation_result
      · rw [if_pos hres]
        exact hi
      · rw [if_neg hres]
        by_cases hok : st.code = StatusCode.ok
        · rw [if_pos hok]
          exact List.mem_append_left _ hi
        · rw [if_neg hok]
          by_cases hret : st.code.isRetryable = false
          · rw [if_pos hret]
            exact hi
          · rw [if_neg hret]
            by_cases hidem : a.is_idempotent
            · rw [if_pos hidem]
              exact hi
            · rw [if_neg hidem]
              exact hi

theorem res_runMutatorFrom (steps : List MutatorStep) :
    ∀ (s : BulkMutator) {i : Nat}, i ∈ s.resolvedSuccesses →
      i ∈ (runMutatorFrom s steps).resolvedSuccesses := by
  have hone : ∀ (r : MutateRowsResponse) (s : BulkMutator) {i : Nat},
      i ∈ s.resolvedSuccesses → i ∈ (s.ProcessResponse r).resolvedSuccesses := by
    intro r
    unfold BulkMutator.ProcessResponse
    induction r with
    | nil => exact fun s _ hi => hi
    | cons x t ih =>
      exact fun s i hi => ih _ (res_processOneEntry s x.index x.status hi)
  have hfold : ∀ (chunks : List MutateRowsResponse) (s : BulkMutator)
      {i : Nat}, i ∈ s.resolvedSuccesses →
      i ∈ (chunks.foldl BulkMutator.ProcessResponse s).resolvedSuccesses := by
    intro chunks
    induction chunks with
    | nil => exact fun s _ hi => hi
    | cons c t ih => exact fun s i hi => ih _ (hone c s hi)
  induction steps with
  | nil => exact fun s _ hi => hi
  | cons st t ih =>
    intro s i hi
    refine ih _ ?_
    cases st with
    | round chunks rt => exact hfold chunks _ hi
    | extract => exact hi

theorem not_active_of_terminal {batch : List SingleRowMutation}
    {s : BulkMutator} (h : MutatorInv batch s) {i : Nat}
    (hi : i ∈ failureIndices s ++ extractedIndices s) :
    i ∉ unresolvedIndices s.annotations_ ∧ i ∉ pendingIndices s := by
  have hnd : (trackedIndices s).Nodup :=
    h.perm.nodup_iff.mpr (List.nodup_range _)
  have hle := List.nodup_iff_count_le_one.mp hnd i
  have hpos : 0 < (failureIndices s).count i + (extractedIndices s).count i := by
    have := List.count_pos_iff.mpr hi
    rwa [List.count_append] at this
  simp only [trackedIndices, List.count_append] at hle
  constructor
  · intro hmem
    have := List.count_pos_iff.mpr hmem
    omega
  · intro hmem
    have := List.count_pos_iff.mpr (hmem : i ∈ pendingIndices s)
    omega

theorem not_active_of_resolved {batch : List SingleRowMutation}
    {s : BulkMutator} (h : MutatorInv batch s) {i : Nat}
    (hi : i ∈ s.resolvedSuccesses) :
    i ∉ unresolvedIndices s.annotations_ ∧ i ∉ pendingIndices s ∧
      i ∉ failureIndices s ∧ i ∉ extractedIndices s := by
  have hnd : (trackedIndices s).Nodup :=
    h.perm.nodup_iff.mpr (List.nodup_range _)
  have hle := List.nodup_iff_count_le_one.mp hnd i
  have hpos : 0 < s.resolvedSuccesses.count i := List.count_pos_iff.mpr hi
  simp only [trackedIndices, List.count_append] at hle
  refine ⟨?_, ?_, ?_, ?_⟩ <;> intro hmem <;>
    have := List.count_pos_iff.mpr hmem <;> omega

theorem asyncStart_chunks_aux (chunks : List MutateRowsResponse) :
    ∀ (t : BulkMutator) (cbs : List BulkMutator),
      (chunks.map StreamEvent.chunk).foldl asyncEventStep (t, cbs) =
        (chunks.foldl BulkMutator.ProcessResponse t, cbs) := by
  induction chunks with
  | nil => exact fun t cbs => rfl
  | cons c r ih =>
    intro t cbs
    simp only [List.map_cons, List.foldl_cons, asyncEventStep]
    exact ih _ _

/-- Claim C1: for every batch and every protocol-conformant sequence of
operations (rounds made of one `PrepareForRequest`, the round's
`ProcessResponse` calls and one `FinishRequest`, interleaved with
`ExtractFinalFailures` calls), the original indices found across the four
states of Invariant I1 (Current Set entries without a result, Pending Set,
Accumulated Failures together with already-extracted failures, and
resolved-successfully-and-discarded) form a permutation of the full
original index set: no index is duplicated and none is lost. -/
theorem bulkMutator_entries_partition (policy : SingleRowMutation → Bool)
    (batch : List SingleRowMutation) (steps : List MutatorStep) :
    (trackedIndices (runMutator policy batch steps)).Perm
      (List.range batch.length) :=
  (inv_runMutator policy batch steps).1.perm

/-- Claim C2: in every reachable mutator state, every annotation in the
Current Set or Pending Set and every Failed Mutation (accumulated or
extracted) carries the original index of exactly its own entry: looking
that index up in the caller's original batch yields the very entry the
annotation or failure travels with, no matter how many retry rounds
reordered the entries. -/
theorem annotations_carry_original_index (policy : SingleRowMutation → Bool)
    (batch : List SingleRowMutation) (steps : List MutatorStep) :
    indexFidelity batch (runMutator policy batch steps) = true := by
  obtain ⟨hinv, -, -⟩ := inv_runMutator policy batch steps
  unfold indexFidelity
  rw [Bool.and_eq_true, Bool.and_eq_true, List.all_eq_true, List.all_eq_true,
    List.all_eq_true]
  refine ⟨⟨fun p hp => ?_, fun p hp => ?_⟩, fun f hf => ?_⟩
  · rw [decide_eq_true_iff]
    exact hinv.pair_cur p hp
  · rw [decide_eq_true_iff]
    exact hinv.pair_pend p hp
  · rw [decide_eq_true_iff]
    rcases List.mem_append.mp hf with h1 | h2
    · exact hinv.pair_fail f h1
    · exact hinv.pair_extr f h2

/-- Claim C8: in every reachable mutator state, `HasPendingMutations`
(computed in the header as `pending_mutations_.entries_size() != 0`)
returns true exactly when the Pending Set, the paired collection of
entries and annotations to be sent in the next round, is non-empty. -/
theorem hasPendingMutations_iff_pending_nonempty
    (policy : SingleRowMutation → Bool) (batch : List SingleRowMutation)
    (steps : List MutatorStep) :
    (runMutator policy batch steps).HasPendingMutations = true ↔
      (runMutator policy batch steps).pending_mutations_.zip
        (runMutator policy batch steps).pending_annotations_ ≠ [] := by
  obtain ⟨hinv, -, -⟩ := inv_runMutator policy batch steps
  have hlen : ((runMutator policy batch steps).pending_mutations_.zip
      (runMutator policy batch steps).pending_annotations_).length =
      (runMutator policy batch steps).pending_mutations_.length := by
    rw [List.length_zip, ← hinv.len_pend, Nat.min_self]
  rw [BulkMutator.HasPendingMutations, bne_iff_ne]
  constructor
  · intro h hzip
    apply h
    have := congrArg List.length hzip
    rw [hlen] at this
    simpa using this
  · intro h hl
    apply h
    apply List.length_eq_zero.mp
    rw [hlen, hl]

/-- Claim C4: after `FinishRequest`, the Current Set is empty, and every
Current Set annotation that had no result was split as the spec demands:
with retry budget available, idempotent entries are re-queued (entry and
annotation, in order) and non-idempotent ones become Failed Mutations with
the distinguished unknown-outcome status; with the budget exhausted,
nothing is re-queued and the idempotent entries instead give up with the
budget-exhausted status.  The modelled `FinishRequest` applies this same
split regardless of the round's call status, as the spec prescribes the
identical treatment in its call-failed and silently-dropped cases. -/
theorem finishRequest_unknown_outcome_split (s : BulkMutator) (rt : Bool) :
    (s.FinishRequest rt).mutations_ = []
    ∧ (s.FinishRequest rt).annotations_ = []
    ∧ (s.FinishRequest rt).pending_mutations_ =
        s.pending_mutations_ ++
          (if rt then (((s.mutations_.zip s.annotations_).filter
            (fun p => !p.2.has_mutation_result)).filter
              (fun p => p.2.is_idempotent)).map Prod.fst else [])
    ∧ (s.FinishRequest rt).pending_annotations_ =
        s.pending_annotations_ ++
          (if rt then (((s.mutations_.zip s.annotations_).filter
            (fun p => !p.2.has_mutation_result)).filter
              (fun p => p.2.is_idempotent)).map Prod.snd else [])
    ∧ (s.FinishRequest rt).failures_ =
        s.failures_ ++
          ((if rt then ((s.mutations_.zip s.annotations_).filter
              (fun p => !p.2.has_mutation_result)).filter
                (fun p => !p.2.is_idempotent)
            else (s.mutations_.zip s.annotations_).filter
              (fun p => !p.2.has_mutation_result)).map fun p =>
            { mut_ := p.1
              status := if p.2.is_idempotent then budgetExhaustedStatus
                        else unknownOutcomeStatus
              original_index := p.2.original_index }) := by
  cases rt <;>
    simp [BulkMutator.FinishRequest, Bool.and_true, Bool.and_false,
      List.filter_true, List.filter_false]

/-- Claim C7: `ExtractFinalFailures` is an idempotent drain: the returned
sequence is the accumulated failures followed by one budget-exhausted
Failed Mutation per still-pending entry, and the post-state has empty
failures and an empty Pending Set, so an immediately following call
returns the empty sequence. -/
theorem extractFinalFailures_idempotent_drain (s : BulkMutator) :
    s.ExtractFinalFailures.1 =
      s.failures_ ++
        (s.pending_mutations_.zip s.pending_annotations_).map (fun p =>
          { mut_ := p.1, status := budgetExhaustedStatus
            original_index := p.2.original_index })
    ∧ s.ExtractFinalFailures.2.failures_ = []
    ∧ s.ExtractFinalFailures.2.pending_mutations_ = []
    ∧ s.ExtractFinalFailures.2.pending_annotations_ = []
    ∧ s.ExtractFinalFailures.2.ExtractFinalFailures.1 = [] := by
  refine ⟨rfl, rfl, rfl, rfl, ?_⟩
  simp [BulkMutator.ExtractFinalFailures]

/-- Claim C6: for every state and every completion-queue event stream of
one `Start` call (any number of chunks, then the completion event, which
the scheduler contract delivers exactly once, even when the stream fails
with zero chunks), the user callback fires exactly once, and the state it
observes is exactly the state the synchronous `MakeOneRequest` would have
produced, with `FinishRequest` already applied, so `HasPendingMutations`
and `ExtractFinalFailures` behave between rounds exactly as in the
synchronous case. -/
theorem asyncBulkMutator_callback_once (s : BulkMutator)
    (chunks : List MutateRowsResponse) (rt : Bool) :
    AsyncStart s (chunks.map StreamEvent.chunk ++ [StreamEvent.finished rt]) =
      (s.MakeOneRequest chunks rt, [s.MakeOneRequest chunks rt])
    ∧ (AsyncStart s (chunks.map StreamEvent.chunk ++
        [StreamEvent.finished rt])).2.length = 1 := by
  have h : AsyncStart s (chunks.map StreamEvent.chunk ++
      [StreamEvent.finished rt]) =
      (s.MakeOneRequest chunks rt, [s.MakeOneRequest chunks rt]) := by
    unfold AsyncStart BulkMutator.MakeOneRequest
    rw [List.foldl_append, asyncStart_chunks_aux]
    rfl
  exact ⟨h, by rw [h]; rfl⟩

/-- Claim C9: `AsyncApply` computes its idempotency classification as the
conjunction over all individual mutations of the built request, exactly
once, and the `ConstantIdempotencyPolicy` built from it answers every
later query of the retry loop with that same constant value. -/
theorem asyncApply_constant_idempotency (policy : Mutation → Bool)
    (request : MutateRowRequest) :
    (asyncApplyIsIdempotent policy request = true ↔
      ∀ m ∈ request.mutations, policy m = true)
    ∧ ∀ m : Mutation,
        (ConstantIdempotencyPolicy.mk
          (asyncApplyIsIdempotent policy request)).is_idempotent m =
          asyncApplyIsIdempotent policy request :=
  ⟨List.all_eq_true, fun m => rfl⟩

/-- Claim C10: `TableName` returns the concatenation of the instance name,
`/tables/` and the table id, so every `noex::Table` stores a table name of
the fixed form `projects/P/instances/I/tables/T`; and
`SetCommonTableOperationRequest` sets exactly the `app_profile_id` and
`table_name` fields of the request, leaving every other field unchanged. -/
theorem tableName_shape_and_common_request_frame (client : DataClient)
    (app table_id tname : String) (request : MutateRowRequest) :
    TableName client table_id =
      "projects/" ++ client.project_id ++ "/instances/" ++
        client.instance_id ++ "/tables/" ++ table_id
    ∧ (NoexTable.make client app table_id).table_name =
      "projects/" ++ client.project_id ++ "/instances/" ++
        client.instance_id ++ "/tables/" ++ table_id
    ∧ (SetCommonTableOperationRequest request app tname).app_profile_id = app
    ∧ (SetCommonTableOperationRequest request app tname).table_name = tname
    ∧ (SetCommonTableOperationRequest request app tname).row_key =
      request.row_key
    ∧ (SetCommonTableOperationRequest request app tname).mutations =
      request.mutations :=
  ⟨rfl, rfl, rfl, rfl, rfl, rfl⟩

theorem res_foldResponses (chunks : List MutateRowsResponse) :
    ∀ (s : BulkMutator) {i : Nat}, i ∈ s.resolvedSuccesses →
      i ∈ (chunks.foldl BulkMutator.ProcessResponse s).resolvedSuccesses := by
  have hone : ∀ (r : MutateRowsResponse) (s : BulkMutator) {i : Nat},
      i ∈ s.resolvedSuccesses →
      i ∈ (s.ProcessResponse r).resolvedSuccesses := by
    intro r
    unfold BulkMutator.ProcessResponse
    induction r with
    | nil => exact fun s _ hi => hi
    | cons x t ih =>
      exact fun s i hi => ih _ (res_processOneEntry s x.index x.status hi)
  induction chunks with
  | nil => exact fun s _ hi => hi
  | cons c t ih => exact fun s i hi => ih _ (hone c s hi)

/-- Claim C3: on any reachable mid-round state, when a response pair hits
an annotation that is not idempotent, has no result yet, and carries a
retryable (transient) status, exactly one Failed Mutation with that
entry, that status and the original index is appended, the Pending Set is
left untouched, and after the rest of the round and any continuation of
the run the original index never again appears among the unresolved
Current Set annotations or in the Pending Set: the entry is never
resent. -/
theorem nonIdempotent_transient_failure_terminal
    (policy : SingleRowMutation → Bool) (batch : List SingleRowMutation)
    (steps0 : List MutatorStep) (chunks1 : List MutateRowsResponse)
    (idx : Nat) (st : RpcStatus) (a : Annotations) (e : SingleRowMutation)
    (chunks2 : List MutateRowsResponse) (rt : Bool)
    (steps1 : List MutatorStep) (s : BulkMutator)
    (hs : s = midRoundState policy batch steps0 chunks1)
    (h1 : s.annotations_[idx]? = some a)
    (h2 : s.mutations_[idx]? = some e)
    (h3 : a.has_mutation_result = false)
    (h4 : a.is_idempotent = false)
    (h5 : st.code.isRetryable = true) :
    (s.processOneEntry idx st).failures_ =
      s.failures_ ++
        [{ mut_ := e, status := st, original_index := a.original_index }]
    ∧ (s.processOneEntry idx st).pending_mutations_ = s.pending_mutations_
    ∧ (s.processOneEntry idx st).pending_annotations_ =
        s.pending_annotations_
    ∧ a.original_index ∉ unresolvedIndices
        (continueRound s idx st chunks2 rt steps1).annotations_
    ∧ a.original_index ∉ pendingIndices
        (continueRound s idx st chunks2 rt steps1) := by
  have hok : ¬ st.code = StatusCode.ok := by
    intro hc
    rw [hc] at h5
    simp [StatusCode.isRetryable] at h5
  have hret : ¬ st.code.isRetryable = false := by simp [h5]
  have hidem : ¬ (a.is_idempotent = true) := by simp [h4]
  have heval : s.processOneEntry idx st = { s with
      annotations_ := s.annotations_.set idx
        { a with has_mutation_result := true }
      failures_ := s.failures_ ++
        [{ mut_ := e, status := st, original_index := a.original_index }] } := by
    unfold BulkMutator.processOneEntry
    rw [h1, h2]
    dsimp only
    rw [if_neg (by simp [h3]), if_neg hok, if_neg hret, if_neg hidem]
  obtain ⟨hinv0, hm0, ha0⟩ := inv_runMutator policy batch steps0
  have hinvs : MutatorInv batch s := by
    rw [hs]
    exact inv_foldResponses chunks1 _ (inv_prepare hinv0 hm0 ha0)
  have hinv2 : MutatorInv batch ((chunks2.foldl BulkMutator.ProcessResponse
      (s.processOneEntry idx st)).FinishRequest rt) :=
    inv_FinishRequest
      (inv_foldResponses chunks2 _ (inv_processOneEntry hinvs idx st)) rt
  obtain ⟨hinv3, -, -⟩ := inv_runMutatorFrom steps1 _ hinv2 rfl rfl
  have hifail : a.original_index ∈
      failureIndices (s.processOneEntry idx st) ++
      extractedIndices (s.processOneEntry idx st) := by
    refine List.mem_append_left _ ?_
    rw [heval]
    simp [failureIndices]
  have hifail3 := fe_runMutatorFrom steps1 _
    (fe_FinishRequest _ rt (fe_foldResponses chunks2 _ hifail))
  obtain ⟨hnu, hnp⟩ := not_active_of_terminal hinv3 hifail3
  exact ⟨by rw [heval], by rw [heval], by rw [heval], hnu, hnp⟩

/-- Claim C5: on any reachable mid-round state, when a response pair hits
an annotation without a result yet and carries a success status, the
entry is simply dropped (no Failed Mutation, nothing re-queued), and
after the rest of the round and any continuation of the run the original
index never appears among the unresolved Current Set annotations, never
appears in the Pending Set (so it is in no later request), and never
appears in the sequence returned by `ExtractFinalFailures`. -/
theorem success_entry_never_resent_nor_failed
    (policy : SingleRowMutation → Bool) (batch : List SingleRowMutation)
    (steps0 : List MutatorStep) (chunks1 : List MutateRowsResponse)
    (idx : Nat) (st : RpcStatus) (a : Annotations) (e : SingleRowMutation)
    (chunks2 : List MutateRowsResponse) (rt : Bool)
    (steps1 : List MutatorStep) (s : BulkMutator)
    (hs : s = midRoundState policy batch steps0 chunks1)
    (h1 : s.annotations_[idx]? = some a)
    (h2 : s.mutations_[idx]? = some e)
    (h3 : a.has_mutation_result = false)
    (h4 : st.code = StatusCode.ok) :
    (s.processOneEntry idx st).failures_ = s.failures_
    ∧ (s.processOneEntry idx st).pending_mutations_ = s.pending_mutations_
    ∧ (s.processOneEntry idx st).pending_annotations_ =
        s.pending_annotations_
    ∧ a.original_index ∉ unresolvedIndices
        (continueRound s idx st chunks2 rt steps1).annotations_
    ∧ a.original_index ∉ pendingIndices
        (continueRound s idx st chunks2 rt steps1)
    ∧ a.original_index ∉
        (continueRound s idx st chunks2 rt steps1).ExtractFinalFailures.1.map
          FailedMutation.original_index := by
  have heval : s.processOneEntry idx st = { s with
      annotations_ := s.annotations_.set idx
        { a with has_mutation_result := true }
      resolvedSuccesses := s.resolvedSuccesses ++ [a.original_index] } := by
    unfold BulkMutator.processOneEntry
    rw [h1, h2]
    dsimp only
    rw [if_neg (by simp [h3]), if_pos h4]
  obtain ⟨hinv0, hm0, ha0⟩ := inv_runMutator policy batch steps0
  have hinvs : MutatorInv batch s := by
    rw [hs]
    exact inv_foldResponses chunks1 _ (inv_prepare hinv0 hm0 ha0)
  have hinv2 : MutatorInv batch ((chunks2.foldl BulkMutator.ProcessResponse
      (s.processOneEntry idx st)).FinishRequest rt) :=
    inv_FinishRequest
      (inv_foldResponses chunks2 _ (inv_processOneEntry hinvs idx st)) rt
  obtain ⟨hinv3, -, -⟩ := inv_runMutatorFrom steps1 _ hinv2 rfl rfl
  have hires : a.original_index ∈
      (s.processOneEntry idx st).resolvedSuccesses := by
    rw [heval]
    simp
  have hires3 : a.original_index ∈
      (continueRound s idx st chunks2 rt steps1).resolvedSuccesses :=
    res_runMutatorFrom steps1 _ (res_foldResponses chunks2 _ hires)
  obtain ⟨hnu, hnp, hnf, hne⟩ := not_active_of_resolved hinv3 hires3
  refine ⟨by rw [heval], by rw [heval], by rw [heval], hnu, hnp, ?_⟩
  intro hmem
  rcases List.mem_map.mp hmem with ⟨f, hf, hfe⟩
  rcases List.mem_append.mp hf with hfl | hfg
  · apply hnf
    rw [← hfe]
    exact List.mem_map_of_mem _ hfl
  · rcases List.mem_map.mp hfg with ⟨p, hp, hpe⟩
    apply hnp
    have hsnd := (List.of_mem_zip hp).2
    have hpa : p.2.original_index = a.original_index := by
      rw [← hfe, ← hpe]
    rw [← hpa]
    exact List.mem_map_of_mem _ hsnd

theorem nonIdempotent_transient_failure_terminal_witness :
    ((midRoundState (fun _ => false) [⟨"r", []⟩] [] []).processOneEntry 0
        ⟨StatusCode.unavailable, "u"⟩).failures_ =
      (midRoundState (fun _ => false) [⟨"r", []⟩] [] []).failures_ ++
        [{ mut_ := ⟨"r", []⟩, status := ⟨StatusCode.unavailable, "u"⟩,
           original_index := 0 }]
    ∧ ((midRoundState (fun _ => false) [⟨"r", []⟩] [] []).processOneEntry 0
        ⟨StatusCode.unavailable, "u"⟩).pending_mutations_ =
      (midRoundState (fun _ => false) [⟨"r", []⟩] [] []).pending_mutations_
    ∧ ((midRoundState (fun _ => false) [⟨"r", []⟩] [] []).processOneEntry 0
        ⟨StatusCode.unavailable, "u"⟩).pending_annotations_ =
      (midRoundState (fun _ => false) [⟨"r", []⟩] [] []).pending_annotations_
    ∧ (0 : Nat) ∉ unresolvedIndices
        (continueRound (midRoundState (fun _ => false) [⟨"r", []⟩] [] []) 0
          ⟨StatusCode.unavailable, "u"⟩ [] true []).annotations_
    ∧ (0 : Nat) ∉ pendingIndices
        (continueRound (midRoundState (fun _ => false) [⟨"r", []⟩] [] []) 0
          ⟨StatusCode.unavailable, "u"⟩ [] true []) :=
  nonIdempotent_transient_failure_terminal (fun _ => false) [⟨"r", []⟩] []
    [] 0 ⟨StatusCode.unavailable, "u"⟩ ⟨0, false, false⟩ ⟨"r", []⟩ [] true
    [] (midRoundState (fun _ => false) [⟨"r", []⟩] [] []) rfl (by decide)
    (by decide) (by decide) (by decide) (by decide)

theorem success_entry_never_resent_nor_failed_witness :
    ((midRoundState (fun _ => true) [⟨"r", []⟩] [] []).processOneEntry 0
        ⟨StatusCode.ok, ""⟩).failures_ =
      (midRoundState (fun _ => true) [⟨"r", []⟩] [] []).failures_
    ∧ ((midRoundState (fun _ => true) [⟨"r", []⟩] [] []).processOneEntry 0
        ⟨StatusCode.ok, ""⟩).pending_mutations_ =
      (midRoundState (fun _ => true) [⟨"r", []⟩] [] []).pending_mutations_
    ∧ ((midRoundState (fun _ => true) [⟨"r", []⟩] [] []).processOneEntry 0
        ⟨StatusCode.ok, ""⟩).pending_annotations_ =
      (midRoundState (fun _ => true) [⟨"r", []⟩] [] []).pending_annotations_
    ∧ (0 : Nat) ∉ unresolvedIndices
        (continueRound (midRoundState (fun _ => true) [⟨"r", []⟩] [] []) 0
          ⟨StatusCode.ok, ""⟩ [] true []).annotations_
    ∧ (0 : Nat) ∉ pendingIndices
        (continueRound (midRoundState (fun _ => true) [⟨"r", []⟩] [] []) 0
          ⟨StatusCode.ok, ""⟩ [] true [])
    ∧ (0 : Nat) ∉
        (continueRound (midRoundState (fun _ => true) [⟨"r", []⟩] [] []) 0
          ⟨StatusCode.ok, ""⟩ [] true
          []).ExtractFinalFailures.1.map FailedMutation.original_index :=
  success_entry_never_resent_nor_failed (fun _ => true) [⟨"r", []⟩] [] []
    0 ⟨StatusCode.ok, ""⟩ ⟨0, true, false⟩ ⟨"r", []⟩ [] true []
    (midRoundState (fun _ => true) [⟨"r", []⟩] [] []) rfl (by decide)
    (by decide) (by decide) (by decide)
